import Mathlib

/-!
Shallow embedding of `pypers/pipeline.py`: the stage data model, the
dependency resolver `create_pipeline`, the backfill computation
`Pipeline.get_extra_stages`, the execution loop `Pipeline.process`, and
the stage invocation protocol `Stage.__call__`.

Python dicts are modelled as association lists with first-match lookup.
Python sets / frozensets of field names are modelled as `List String`
with membership-based (hence representation-insensitive) operations;
properties are stated over the corresponding `Finset String` obtained by
`List.toFinset`, so that independence from the concrete set
representation is provable rather than baked in.  Elapsed wall time of
an executed stage is nondeterministic in the source; it is modelled by
an oracle `String → Nat` giving the duration of each stage, with a
literal `0` for skipped stages as in the source.  Failure paths
(`assert`, `raise`, `KeyError`, `IndexError`) are modelled with
`Except`.
-/

namespace Pypers

/-- A data record: the Python `dict` threaded through one pipeline run,
modelled as an association list with first-match lookup. -/
abbrev Record (V : Type) := List (String × V)

/-- `data[key]` of a Python dict (`none` when the key is absent). -/
def rlookup {V : Type} (r : Record V) (k : String) : Option V :=
  (r.find? (fun p => decide (p.1 = k))).map (fun p => p.2)

/-- `data[key] = value`: overwrite in place when the key is present,
append otherwise. -/
def setKey {V : Type} (r : Record V) (k : String) (v : V) : Record V :=
  if r.any (fun p => decide (p.1 = k)) then
    r.map (fun p => if p.1 = k then (k, v) else p)
  else r ++ [(k, v)]

/-- `data.update(other)`: fold `setKey` over the entries of `other`. -/
def updateRec {V : Type} (r other : Record V) : Record V :=
  other.foldl (fun acc p => setKey acc p.1 p.2) r

/-- `del data[key]`. -/
def delKey {V : Type} (r : Record V) (k : String) : Record V :=
  r.filter (fun p => decide (p.1 ≠ k))

/-- `for key in keys: del data[key]`. -/
def delKeys {V : Type} (r : Record V) (ks : List String) : Record V :=
  ks.foldl delKey r

/-- The keys of a record, in insertion order (`data.keys()`). -/
def recKeys {V : Type} (r : Record V) : List String :=
  r.map (fun p => p.1)

/-- First-some choice on options (`some` from the left wins), used to
state dict-merge lookups. -/
def orO {V : Type} : Option V → Option V → Option V
  | some v, _ => some v
  | none, o => o

/-- `a.issubset(b)` on set-of-field-names values represented as lists. -/
def subsetB (xs ys : List String) : Bool :=
  xs.all (fun k => decide (k ∈ ys))

/-- Set equality (`len(a ^ b) == 0`: empty symmetric difference). -/
def setEqB (xs ys : List String) : Bool :=
  subsetB xs ys && subsetB ys xs

/-- `a | b` (set union) on the list representation: keep `a`, append the
members of `b` not already present. -/
def listUnion (xs ys : List String) : List String :=
  xs ++ ys.filter (fun k => decide (k ∉ xs))

/-- `a - b` (set difference) on the list representation. -/
def listDiff (xs ys : List String) : List String :=
  xs.filter (fun k => decide (k ∉ ys))

/-- `s.endswith('+')`, computed on the character list of the string. -/
def endsPlus (s : String) : Bool :=
  decide (s.data.getLast? = some (Char.ofNat 43))

/-- `first_stage[:-1]`: drop the final character. -/
def dropLastChar (s : String) : String :=
  String.mk s.data.dropLast

/-- The static data of a pipeline stage, as fixed by `Stage.__init__`:
`id`, `inputs` (already unioned with `consumes`, as the constructor
does), `outputs`, `consumes` and the `enabled_by_default` flag.  The
three field collections are frozensets in the source, represented here
as lists and always used through set-semantics operations. -/
structure StageSpec where
  id : String
  inputs : List String
  outputs : List String
  consumes : List String
  enabled_by_default : Bool
deriving DecidableEq

/-- Error message of the reserved-suffix assertion in `Stage.__init__`. -/
def reservedSuffixMsg : String :=
  "the suffix + is reserved as an indication of the stage after that stage"

/-- `Stage.__init__`: computes
`inputs = frozenset(inputs) | frozenset(consumes)` (the `dedup`s model
the conversion of the declared lists to frozensets) and asserts that the
stage ID does not end with the reserved `'+'` suffix. -/
def mkStageSpec (id : String) (inputs outputs consumes : List String)
    (enabledByDefault : Bool) : Except String StageSpec :=
  if endsPlus id then Except.error reservedSuffixMsg
  else Except.ok
    { id := id
      inputs := listUnion inputs.dedup consumes.dedup
      outputs := outputs.dedup
      consumes := consumes.dedup
      enabled_by_default := enabledByDefault }

/-- A runnable stage: its static data plus its `process` implementation
(receiving the stage's cleaned configuration entries and the extracted
input fields, returning the produced output fields). -/
structure Stage (V : Type) where
  spec : StageSpec
  process : List (String × V) → Record V → Record V

/-- Lifecycle notifications observable through the callback mechanism of
`Stage.__call__` and `Stage.skip`. -/
inductive StageEvent where
  | started
  | ended
  | skipped
deriving DecidableEq

/-- The configuration namespace of one stage: the reserved `enabled`
flag (absent = `none`) and the remaining hyperparameter entries, which
`Stage.__call__` passes on to `process` after popping `enabled`. -/
structure StageCfg (V : Type) where
  enabled : Option Bool
  params : List (String × V)

/-- A run configuration: mapping from stage ID to its namespace. -/
abbrev Config (V : Type) := List (String × StageCfg V)

/-- `cfg.get(stage_id, {})`. -/
def cfgGet {V : Type} (cfg : Config V) (sid : String) : StageCfg V :=
  (((cfg.find? (fun p => decide (p.1 = sid))).map (fun p => p.2)).getD
    { enabled := none, params := [] })

/-- `{key: data[key] for key in keys}`: raises `KeyError` when a key is
absent from the record. -/
def extractInputs {V : Type} (data : Record V) (keys : List String) :
    Except String (Record V) :=
  if keys.all (fun k => (rlookup data k).isSome) then
    Except.ok (keys.filterMap (fun k => (rlookup data k).map (fun v => (k, v))))
  else Except.error "KeyError: input field missing from data record"

/-- Error message of the output-contract assertion in `Stage.__call__`. -/
def contractMsg (sid : String) : String :=
  "stage " ++ sid ++ " produced spurious or missing output"

/-- `Stage.__call__`: when the effective `enabled` flag
(`cfg.get('enabled', enabled_by_default)`) is true, extract the declared
inputs from the record (KeyError when missing), run `process` on them,
assert that the set of returned keys equals the set of declared outputs
(symmetric difference empty), merge the outputs into the record, delete
the consumed keys, and return the elapsed time `dt`; otherwise skip with
notification and return `0`.  The returned event list records the fired
callbacks (`start`/`end` on the run path, `skip` on the skip path). -/
def stageCall {V : Type} (st : Stage V) (data : Record V) (cfg : Config V)
    (dt : Nat) : Except String (Record V × Nat × List StageEvent) :=
  let c := cfgGet cfg st.spec.id
  if c.enabled.getD st.spec.enabled_by_default then
    match extractInputs data st.spec.inputs with
    | Except.error e => Except.error e
    | Except.ok inputData =>
      let outputData := st.process c.params inputData
      if setEqB (recKeys outputData) st.spec.outputs then
        Except.ok
          (delKeys (updateRec data outputData) st.spec.consumes, dt,
            [StageEvent.started, StageEvent.ended])
      else Except.error (contractMsg st.spec.id)
  else Except.ok (data, 0, [StageEvent.skipped])

/-- The mapping returned by the stage's `process` method in the context
of `Stage.__call__`: applied to the cleaned configuration and the
extracted input fields. -/
def stageOut {V : Type} (st : Stage V) (data : Record V) (cfg : Config V) : Record V :=
  st.process (cfgGet cfg st.spec.id).params
    (st.spec.inputs.filterMap (fun k => (rlookup data k).map (fun v => (k, v))))

/-- The update of the resolver's available set after appending a stage:
`available |= stage.outputs; available -= stage.consumes`. -/
def stepAvailL (av : List String) (s : StageSpec) : List String :=
  listDiff (listUnion av s.outputs) s.consumes

/-- The conflict check of `create_pipeline`: a candidate `s1` is
conflicted when some other remaining stage `s2` satisfies
`len(s1.consumes) > 0 and s1.consumes.issubset(s2.inputs)`. -/
def conflictedB (s1 : StageSpec) (remaining : List StageSpec) : Bool :=
  remaining.any (fun s2 =>
    decide (s2 ≠ s1) && !s1.consumes.isEmpty && subsetB s1.consumes s2.inputs)

/-- The scan predicate of `create_pipeline`: the candidate's inputs are
all available and the conflict check passes. -/
def qualifiesB (remaining : List StageSpec) (av : List String) (s1 : StageSpec) : Bool :=
  subsetB s1.inputs av && !(conflictedB s1 remaining)

/-- The scan of `create_pipeline`: the first remaining stage, in
declaration order, whose inputs are available and which is not
conflicted. -/
def findCandidate (remaining : List StageSpec) (av : List String) : Option StageSpec :=
  remaining.find? (qualifiesB remaining av)

/-- `remaining_stages.remove(next_stage)` (removal of the first
occurrence). -/
def removeFirst (c : StageSpec) : List StageSpec → List StageSpec
  | [] => []
  | s :: rest => if s = c then rest else s :: removeFirst c rest

/-- Failures of `create_pipeline`: the two uniqueness assertions, the
`RuntimeError` raised when no candidate qualifies (carrying, as its
message does, the pipeline built so far, the currently available fields
and the remaining stages; the available fields as the abstract set,
since the textual form of a Python set depends on its iteration order),
and an out-of-fuel marker that is provably unreachable from
`create_pipeline`. -/
inductive ResolveError where
  | ambiguousIds
  | ambiguousOutputs
  | noValidOrder (pipelineSoFar : List StageSpec) (available : Finset String)
      (remaining : List StageSpec)
  | outOfFuel
deriving DecidableEq

/-- The `while len(remaining_stages) > 0` loop of `create_pipeline`.
The loop consumes one remaining stage per iteration, so a fuel equal to
the number of stages suffices; `acc` is the pipeline built so far. -/
def resolveLoop : Nat → List StageSpec → List String → List StageSpec →
    Except ResolveError (List StageSpec)
  | _, [], _, acc => Except.ok acc
  | 0, _, _, _ => Except.error ResolveError.outOfFuel
  | fuel + 1, remaining, av, acc =>
    match findCandidate remaining av with
    | none => Except.error (ResolveError.noValidOrder acc av.toFinset remaining)
    | some c => resolveLoop fuel (removeFirst c remaining) (stepAvailL av c) (acc ++ [c])

/-- `create_pipeline`, parametrised by the concrete representation of
the initial `available_inputs = {'input'}` working set: asserts unique
stage identifiers, asserts that `['input']` plus all declared outputs
contains no duplicates (the per-stage `dedup` models the enumeration of
the `outputs` frozenset), then runs the resolution loop. -/
def create_pipeline_from (stages : List StageSpec) (av0 : List String) :
    Except ResolveError (List StageSpec) :=
  if (stages.map StageSpec.id).Nodup then
    if ("input" :: stages.flatMap (fun s => s.outputs.dedup)).Nodup then
      resolveLoop stages.length stages av0 []
    else Except.error ResolveError.ambiguousOutputs
  else Except.error ResolveError.ambiguousIds

/-- `create_pipeline(stages)`. -/
def create_pipeline (stages : List StageSpec) : Except ResolveError (List StageSpec) :=
  create_pipeline_from stages ["input"]

/-- The set-level availability step used to state resolver properties:
`(available ∪ outputs) \ consumes`. -/
def stepAvailF (a : Finset String) (s : StageSpec) : Finset String :=
  (a ∪ s.outputs.toFinset) \ s.consumes.toFinset

/-- The available-field set after placing a list of stages. -/
def availAlongF (a : Finset String) (l : List StageSpec) : Finset String :=
  l.foldl stepAvailF a

/-- Every stage's inputs are contained in the available-field set at the
point the stage is placed (the set starting at `a`, extended by each
earlier stage's outputs and shrunk by its consumes). -/
def inputsSatF (a : Finset String) : List StageSpec → Bool
  | [] => true
  | s :: rest => decide (s.inputs.toFinset ⊆ a) && inputsSatF (stepAvailF a s) rest

/-- A Pipeline: an ordered list of stages. -/
structure Pipeline (V : Type) where
  stages : List (Stage V)

/-- `[stage.id for stage in stages].index(stage_id)`, with `none` in
place of the `float('inf')` dummy for an absent ID. -/
def stageIndex {V : Type} (sid : String) : List (Stage V) → Option Nat
  | [] => none
  | s :: rest =>
    if s.spec.id = sid then some 0 else (stageIndex sid rest).map (fun i => i + 1)

/-- `Pipeline.find`: position of a stage ID, `none` modelling the
`float('inf')` not-found dummy. -/
def Pipeline.find {V : Type} (p : Pipeline V) (sid : String) : Option Nat :=
  stageIndex sid p.stages

/-- `ProcessingControl.step`: returns whether the given stage is inside
the requested window and the updated `started` flag. -/
def ctrlStep (first? last? : Option String) (started : Bool) (sid : String) :
    Bool × Bool :=
  let started1 := if !started ∧ first? = some sid then true else started
  let started2 := if last? = some sid then false else started1
  (started1, started2)

/-- The first pass of `get_extra_stages`: fold over all stages,
accumulating the inputs required and the outputs made available by the
stages inside the requested window. -/
def windowScan (first? last? : Option String) :
    List StageSpec → Bool → List String × List String → List String × List String
  | [], _, acc => acc
  | s :: rest, started, (req, avail) =>
    let step := ctrlStep first? last? started s.id
    if step.1 then
      windowScan first? last? rest step.2
        (listUnion req s.inputs, listUnion avail s.outputs)
    else windowScan first? last? rest step.2 (req, avail)

/-- `stage_by_output[f]`: the producer of field `f`; with repeated
`dict.update` the last declaring stage wins. -/
def producerOf (stages : List StageSpec) (f : String) : Option StageSpec :=
  (stages.filter (fun s => decide (f ∈ s.outputs))).getLast?

/-- The `while True` loop of `get_extra_stages`: repeatedly take a
missing input, add its producer to the backfill list and propagate that
producer's own requirements.  Each iteration adds the outputs of a not
previously picked stage to `avail`, so `stages.length + 1` fuel is never
exhausted; `KeyError` models `stage_by_output[...]` on a field no stage
produces. -/
def backfillLoop (stages : List StageSpec) :
    Nat → List String → List String → List String → Except String (List String)
  | 0, req, avail, acc =>
    match listDiff req avail with
    | [] => Except.ok acc
    | _ :: _ => Except.error "out of fuel (unreachable)"
  | fuel + 1, req, avail, acc =>
    match listDiff req avail with
    | [] => Except.ok acc
    | f :: _ =>
      match producerOf stages f with
      | none => Except.error "KeyError: missing input has no producer"
      | some st => backfillLoop stages fuel (listUnion req st.inputs)
          (listUnion avail st.outputs) (acc ++ [st.id])

/-- `Pipeline.get_extra_stages(first_stage, last_stage, available_inputs)`. -/
def get_extra_stages (stages : List StageSpec) (first? last? : Option String)
    (availableInputs : List String) : Except String (List String) :=
  let scanned := windowScan first? last? stages first?.isNone
    ([], listUnion availableInputs ["input"])
  backfillLoop stages (stages.length + 1) scanned.1 scanned.2 []

/-- Comparison `self.find(first_stage) > self.find(last_stage)` under the
`float('inf')` dummy: `inf > inf` is false, `inf > k` is true, `k > inf`
is false. -/
def idxGt : Option Nat → Option Nat → Bool
  | none, none => false
  | none, some _ => true
  | some _, none => false
  | some a, some b => decide (b < a)

/-- Resolution of the reserved `'+'` suffix on `first_stage`
(`self.stages[1 + self.find(first_stage[:-1])].id`): `TypeError` models
indexing a list with `1 + float('inf')`, `IndexError` a position one
past the end. -/
def resolvePlus {V : Type} (p : Pipeline V) :
    Option String → Except String (Option String)
  | none => Except.ok none
  | some f =>
    if endsPlus f then
      match p.find (dropLastChar f) with
      | none => Except.error "TypeError: list index must be an integer"
      | some i =>
        match p.stages[i + 1]? with
        | none => Except.error "IndexError: list index out of range"
        | some st => Except.ok (some st.spec.id)
    else Except.ok (some f)

/-- The guard of the no-op-window early return:
`first_stage is not None and last_stage is not None and self.find(first_stage) > self.find(last_stage)`. -/
def noopGuard {V : Type} (p : Pipeline V) (first? last? : Option String) : Bool :=
  match first?, last? with
  | some f, some l => idxGt (p.find f) (p.find l)
  | _, _ => false

/-- Error message of the missing-seed-data check in `Pipeline.process`. -/
def valueErrorMsg : String :=
  "ValueError: data argument must be provided if first_stage is used"

/-- Error message for `self.stages[0]` on an empty pipeline. -/
def indexErrorMsg : String := "IndexError: list index out of range"

/-- Result of a `Pipeline.process` run: the final data record (`none`
exactly when the no-op-window early return hands back an absent `data`
argument), the per-stage timings in execution order, and the trace of
lifecycle notifications. -/
structure ProcResult (V : Type) where
  data : Option (Record V)
  timings : List (String × Nat)
  trace : List (String × StageEvent)
deriving DecidableEq

/-- The `for stage in self.stages` loop of `Pipeline.process`: a stage
inside the window or in the backfill list is invoked (its elapsed time
recorded), any other stage gets the skip notification. -/
def procLoop {V : Type} (cfg : Config V) (dtO : String → Nat)
    (first? last? : Option String) (extra : List String) :
    List (Stage V) → Bool → Record V → List (String × Nat) →
    List (String × StageEvent) →
    Except String (Record V × List (String × Nat) × List (String × StageEvent))
  | [], _, data, times, trace => Except.ok (data, times, trace)
  | st :: rest, started, data, times, trace =>
    let step := ctrlStep first? last? started st.spec.id
    if step.1 ∨ st.spec.id ∈ extra then
      match stageCall st data cfg (dtO st.spec.id) with
      | Except.error e => Except.error e
      | Except.ok (data2, dt, evs) =>
        procLoop cfg dtO first? last? extra rest step.2 data2
          (times ++ [(st.spec.id, dt)])
          (trace ++ evs.map (fun e => (st.spec.id, e)))
    else
      procLoop cfg dtO first? last? extra rest step.2 data times
        (trace ++ [(st.spec.id, StageEvent.skipped)])

/-- `Pipeline.process(input, cfg, first_stage, last_stage, data)`:
normalises `first_stage` (from-the-start collapse, `'+'` resolution),
applies the no-op-window early return, checks the missing-seed-data
condition, seeds the data record, computes the backfill stages and runs
the stage loop.  The elapsed time of each executed stage comes from the
oracle `dtO`. -/
def Pipeline.process {V : Type} (p : Pipeline V) (input : Option V)
    (cfg : Config V) (first? last? : Option String) (data? : Option (Record V))
    (dtO : String → Nat) : Except String (ProcResult V) :=
  match p.stages with
  | [] => Except.error indexErrorMsg
  | s0 :: _ =>
    let first1 := if first? = some s0.spec.id ∧ data?.isNone then none else first?
    match resolvePlus p first1 with
    | Except.error e => Except.error e
    | Except.ok first2 =>
      if noopGuard p first2 last? then
        Except.ok { data := data?, timings := [], trace := [] }
      else if first2.isSome ∧ first2 ≠ some s0.spec.id ∧ data?.isNone then
        Except.error valueErrorMsg
      else
        let data0 := data?.getD []
        let data1 := match input with
          | some v => setKey data0 "input" v
          | none => data0
        match get_extra_stages (p.stages.map Stage.spec) first2 last?
            (recKeys data1) with
        | Except.error e => Except.error e
        | Except.ok extra =>
          match procLoop cfg dtO first2 last? extra p.stages first2.isNone data1 [] [] with
          | Except.error e => Except.error e
          | Except.ok (d, times, trace) =>
            Except.ok { data := some d, timings := times, trace := trace }

/-- Decidable equality of `Except` results, used to evaluate the model
on concrete inputs. -/
instance {e a : Type} [DecidableEq e] [DecidableEq a] : DecidableEq (Except e a) :=
  fun x y =>
  match x, y with
  | Except.error u, Except.error v =>
    if h : u = v then Decidable.isTrue (by rw [h]) else Decidable.isFalse (by simp [h])
  | Except.error _, Except.ok _ => Decidable.isFalse (by simp)
  | Except.ok _, Except.error _ => Decidable.isFalse (by simp)
  | Except.ok u, Except.ok v =>
    if h : u = v then Decidable.isTrue (by rw [h]) else Decidable.isFalse (by simp [h])

/-- A stage producing fields `a` and `b` from nothing. -/
def spP : StageSpec := ⟨"p", [], ["a", "b"], [], true⟩

/-- A stage that needs and consumes both `a` and `b`, producing `c`. -/
def spS1 : StageSpec := ⟨"s1", ["a", "b"], ["c"], ["a", "b"], true⟩

/-- A stage that needs `a` (but not `b`), producing `d`. -/
def spS2 : StageSpec := ⟨"s2", ["a"], ["d"], [], true⟩

/-- A stage that needs and consumes `a`. -/
def spS3 : StageSpec := ⟨"s3", ["a"], [], ["a"], true⟩

/-- A second stage that needs `a`. -/
def spS4 : StageSpec := ⟨"s4", ["a"], ["e"], [], true⟩

/-- Demo stage `a`: `input → {x}`. -/
def stA : Stage Nat := ⟨⟨"a", ["input"], ["x"], [], true⟩, fun _ _ => [("x", 0)]⟩

/-- Demo stage `b`: `x → {y}`. -/
def stB : Stage Nat := ⟨⟨"b", ["x"], ["y"], [], true⟩, fun _ _ => [("y", 0)]⟩

/-- Demo stage `c`: `y → {z}`. -/
def stC : Stage Nat := ⟨⟨"c", ["y"], ["z"], [], true⟩, fun _ _ => [("z", 0)]⟩

/-- The three-stage demo pipeline `[a, b, c]`. -/
def pABC : Pipeline Nat := ⟨[stA, stB, stC]⟩

/-- The two-stage demo pipeline `[a, b]`. -/
def pAB : Pipeline Nat := ⟨[stA, stB]⟩

/-- A stage declaring outputs `{y}`, requiring `i` and `c1` and
consuming `c1`, whose `process` returns exactly `{y}`. -/
def c4Stage : Stage Nat :=
  ⟨⟨"s", ["i", "c1"], ["y"], ["c1"], true⟩, fun _ _ => [("y", 42)]⟩

/-- A stage disabled by default. -/
def c8aStage : Stage Nat := ⟨⟨"d", [], [], [], false⟩, fun _ _ => [("w", 3)]⟩

/-- A stage enabled by default (to be disabled by explicit override). -/
def c8bStage : Stage Nat := ⟨⟨"e", [], ["w"], [], true⟩, fun _ _ => [("w", 3)]⟩

theorem subsetB_iff (xs ys : List String) : subsetB xs ys = true ↔ ∀ k ∈ xs, k ∈ ys := by
  simp [subsetB, List.all_eq_true]

theorem mem_listUnion (xs ys : List String) (k : String) :
    k ∈ listUnion xs ys ↔ k ∈ xs ∨ k ∈ ys := by
  simp only [listUnion, List.mem_append, List.mem_filter, decide_eq_true_eq]
  tauto

theorem mem_listDiff (xs ys : List String) (k : String) :
    k ∈ listDiff xs ys ↔ k ∈ xs ∧ k ∉ ys := by
  simp [listDiff, List.mem_filter]

theorem toFinset_listUnion (xs ys : List String) :
    (listUnion xs ys).toFinset = xs.toFinset ∪ ys.toFinset := by
  ext k
  simp [mem_listUnion]

theorem toFinset_listDiff (xs ys : List String) :
    (listDiff xs ys).toFinset = xs.toFinset \ ys.toFinset := by
  ext k
  simp [mem_listDiff]

theorem toFinset_stepAvailL (av : List String) (s : StageSpec) :
    (stepAvailL av s).toFinset = stepAvailF av.toFinset s := by
  simp [stepAvailL, stepAvailF, toFinset_listUnion, toFinset_listDiff]

theorem subsetB_congr (s : List String) (av1 av2 : List String)
    (h : av1.toFinset = av2.toFinset) : subsetB s av1 = subsetB s av2 := by
  have hm : ∀ k : String, k ∈ av1 ↔ k ∈ av2 := by
    intro k
    rw [← List.mem_toFinset, ← List.mem_toFinset, h]
  rw [Bool.eq_iff_iff, subsetB_iff, subsetB_iff]
  constructor <;> intro hsub k hk
  · exact (hm k).mp (hsub k hk)
  · exact (hm k).mpr (hsub k hk)

theorem qualifiesB_congr (remaining : List StageSpec) (av1 av2 : List String)
    (s : StageSpec) (h : av1.toFinset = av2.toFinset) :
    qualifiesB remaining av1 s = qualifiesB remaining av2 s := by
  unfold qualifiesB
  rw [subsetB_congr _ _ _ h]

theorem find?_ext {α : Type} (p q : α → Bool) (l : List α)
    (h : ∀ a ∈ l, p a = q a) : l.find? p = l.find? q := by
  induction l with
  | nil => rfl
  | cons x xs ih =>
    have hx := h x (List.mem_cons_self x xs)
    rw [List.find?_cons, List.find?_cons, hx]
    cases q x
    · exact ih (fun a ha => h a (List.mem_cons_of_mem x ha))
    · rfl

theorem findCandidate_congr (remaining : List StageSpec) (av1 av2 : List String)
    (h : av1.toFinset = av2.toFinset) :
    findCandidate remaining av1 = findCandidate remaining av2 := by
  unfold findCandidate
  exact find?_ext _ _ _ (fun s _ => qualifiesB_congr remaining av1 av2 s h)

theorem find?_eq_some_first {α : Type} (p : α → Bool) (l : List α) (c : α) :
    l.find? p = some c ↔
      ∃ i, ∃ hi : i < l.length, l.get ⟨i, hi⟩ = c ∧ p c = true ∧
        ∀ j, ∀ hj : j < l.length, j < i → p (l.get ⟨j, hj⟩) = false := by
  induction l with
  | nil =>
    simp [List.find?]
  | cons x xs ih =>
    rw [List.find?_cons]
    cases hx : p x with
    | true =>
      simp only [Option.some.injEq]
      constructor
      · intro hxc
        refine ⟨0, by simp, hxc, hxc ▸ hx, ?_⟩
        intro j hj hj0
        omega
      · rintro ⟨i, hi, hget, _, hfirst⟩
        cases i with
        | zero => exact hget
        | succ n =>
          have := hfirst 0 (by simp) (Nat.succ_pos n)
          simp [hx] at this
    | false =>
      rw [ih]
      constructor
      · rintro ⟨i, hi, hget, hc, hfirst⟩
        refine ⟨i + 1, by simpa using Nat.succ_lt_succ hi, hget, hc, ?_⟩
        intro j hj hji
        cases j with
        | zero => simpa using hx
        | succ m =>
          exact hfirst m (by simpa using Nat.lt_of_succ_lt_succ hj) (Nat.lt_of_succ_lt_succ hji)
      · rintro ⟨i, hi, hget, hc, hfirst⟩
        cases i with
        | zero =>
          simp only [List.get] at hget
          rw [hget] at hx
          rw [hc] at hx
          cases hx
        | succ n =>
          refine ⟨n, by simpa using Nat.lt_of_succ_lt_succ hi, hget, hc, ?_⟩
          intro j hj hji
          exact hfirst (j + 1) (by simpa using Nat.succ_lt_succ hj) (Nat.succ_lt_succ hji)

theorem length_removeFirst (c : StageSpec) (l : List StageSpec) (h : c ∈ l) :
    (removeFirst c l).length + 1 = l.length := by
  induction l with
  | nil => cases h
  | cons x xs ih =>
    by_cases hx : x = c
    · simp [removeFirst, hx]
    · have hc : c ∈ xs := by
        rcases List.mem_cons.mp h with h1 | h1
        · exact absurd h1.symm hx
        · exact h1
      simp only [removeFirst, if_neg hx, List.length_cons]
      rw [← ih hc]

theorem perm_removeFirst (c : StageSpec) (l : List StageSpec) (h : c ∈ l) :
    l.Perm (c :: removeFirst c l) := by
  induction l with
  | nil => cases h
  | cons x xs ih =>
    by_cases hx : x = c
    · subst hx
      simp [removeFirst]
    · have hc : c ∈ xs := by
        rcases List.mem_cons.mp h with h1 | h1
        · exact absurd h1.symm hx
        · exact h1
      have step1 : (x :: xs).Perm (x :: (c :: removeFirst c xs)) := (ih hc).cons x
      have step2 : (x :: (c :: removeFirst c xs)).Perm (c :: (x :: removeFirst c xs)) :=
        List.Perm.swap c x (removeFirst c xs)
      simpa [removeFirst, if_neg hx] using step1.trans step2

theorem stageIndex_eq_none_iff {V : Type} (sid : String) (l : List (Stage V)) :
    stageIndex sid l = none ↔ ∀ s ∈ l, s.spec.id ≠ sid := by
  induction l with
  | nil => simp [stageIndex]
  | cons x xs ih =>
    by_cases hx : x.spec.id = sid
    · simp [stageIndex, hx]
    · simp [stageIndex, hx, Option.map_eq_none, ih]

theorem mem_of_stageIndex_some {V : Type} {sid : String} {l : List (Stage V)} {i : Nat}
    (h : stageIndex sid l = some i) : ∃ s ∈ l, s.spec.id = sid := by
  induction l generalizing i with
  | nil => simp [stageIndex] at h
  | cons x xs ih =>
    by_cases hx : x.spec.id = sid
    · exact ⟨x, List.mem_cons_self x xs, hx⟩
    · rw [stageIndex, if_neg hx] at h
      cases hj : stageIndex sid xs with
      | none => rw [hj] at h; cases h
      | some j =>
        obtain ⟨s, hs, hsid⟩ := ih hj
        exact ⟨s, List.mem_cons_of_mem x hs, hsid⟩

theorem availAlongF_nil (a : Finset String) : availAlongF a [] = a := rfl

theorem availAlongF_cons (a : Finset String) (c : StageSpec) (l : List StageSpec) :
    availAlongF a (c :: l) = availAlongF (stepAvailF a c) l := rfl

theorem findCandidate_mem {remaining : List StageSpec} {av : List String} {c : StageSpec}
    (h : findCandidate remaining av = some c) : c ∈ remaining :=
  List.mem_of_find?_eq_some h

theorem findCandidate_qualifies {remaining : List StageSpec} {av : List String}
    {c : StageSpec} (h : findCandidate remaining av = some c) :
    qualifiesB remaining av c = true :=
  List.find?_some h

theorem inputs_subset_of_qualifies {remaining : List StageSpec} {av : List String}
    {c : StageSpec} (h : qualifiesB remaining av c = true) :
    c.inputs.toFinset ⊆ av.toFinset := by
  have h2 := h
  simp only [qualifiesB, Bool.and_eq_true] at h2
  intro k hk
  rw [List.mem_toFinset] at hk
  rw [List.mem_toFinset]
  exact (subsetB_iff _ _).mp h2.1 k hk

theorem resolveLoop_ok (fuel : Nat) :
    ∀ (remaining : List StageSpec) (av : List String) (acc P : List StageSpec),
      remaining.length ≤ fuel →
      resolveLoop fuel remaining av acc = Except.ok P →
      ∃ tail, P = acc ++ tail ∧ tail.Perm remaining ∧
        inputsSatF av.toFinset tail = true := by
  induction fuel with
  | zero =>
    intro remaining av acc P hlen heq
    have hnil : remaining = [] := List.eq_nil_of_length_eq_zero (Nat.le_zero.mp hlen)
    subst hnil
    simp only [resolveLoop, Except.ok.injEq] at heq
    subst heq
    exact ⟨[], by simp, List.Perm.refl [], rfl⟩
  | succ n ih =>
    intro remaining av acc P hlen heq
    cases remaining with
    | nil =>
      simp only [resolveLoop, Except.ok.injEq] at heq
      subst heq
      exact ⟨[], by simp, List.Perm.refl [], rfl⟩
    | cons r rs =>
      cases hfc : findCandidate (r :: rs) av with
      | none => simp [resolveLoop, hfc] at heq
      | some c =>
        simp only [resolveLoop, hfc] at heq
        have hcmem : c ∈ r :: rs := findCandidate_mem hfc
        have hlen2 : (removeFirst c (r :: rs)).length ≤ n := by
          have hL := length_removeFirst c (r :: rs) hcmem
          simp only [List.length_cons] at hL hlen
          omega
        obtain ⟨tail, hP, hperm, hsat⟩ := ih _ _ _ _ hlen2 heq
        refine ⟨c :: tail, ?_, ?_, ?_⟩
        · rw [hP, List.append_assoc]
          rfl
        · exact (hperm.cons c).trans (perm_removeFirst c _ hcmem).symm
        · have hsubset := inputs_subset_of_qualifies (findCandidate_qualifies hfc)
          rw [inputsSatF]
          rw [← toFinset_stepAvailL]
          simp [hsubset, hsat]

theorem resolveLoop_err (fuel : Nat) :
    ∀ (remaining : List StageSpec) (av : List String) (acc : List StageSpec)
      (e : ResolveError),
      remaining.length ≤ fuel →
      resolveLoop fuel remaining av acc = Except.error e →
      ∃ mid rem2 av2, e = ResolveError.noValidOrder (acc ++ mid) av2.toFinset rem2 ∧
        rem2 ≠ [] ∧ (mid ++ rem2).Perm remaining ∧
        av2.toFinset = availAlongF av.toFinset mid ∧ findCandidate rem2 av2 = none := by
  induction fuel with
  | zero =>
    intro remaining av acc e hlen heq
    have hnil : remaining = [] := List.eq_nil_of_length_eq_zero (Nat.le_zero.mp hlen)
    subst hnil
    simp [resolveLoop] at heq
  | succ n ih =>
    intro remaining av acc e hlen heq
    cases remaining with
    | nil => simp [resolveLoop] at heq
    | cons r rs =>
      cases hfc : findCandidate (r :: rs) av with
      | none =>
        simp only [resolveLoop, hfc, Except.error.injEq] at heq
        subst heq
        exact ⟨[], r :: rs, av, by simp, by simp, List.Perm.refl _, rfl, hfc⟩
      | some c =>
        simp only [resolveLoop, hfc] at heq
        have hcmem : c ∈ r :: rs := findCandidate_mem hfc
        have hlen2 : (removeFirst c (r :: rs)).length ≤ n := by
          have hL := length_removeFirst c (r :: rs) hcmem
          simp only [List.length_cons] at hL hlen
          omega
        obtain ⟨mid, rem2, av2, he, hne, hperm, hav, hnone⟩ := ih _ _ _ _ hlen2 heq
        refine ⟨c :: mid, rem2, av2, ?_, hne, ?_, ?_, hnone⟩
        · rw [he, List.append_assoc]
          rfl
        · have hstep : (c :: (mid ++ rem2)).Perm (r :: rs) :=
            (hperm.cons c).trans (perm_removeFirst c _ hcmem).symm
          simpa using hstep
        · rw [hav, availAlongF_cons, toFinset_stepAvailL]

theorem resolveLoop_congr (fuel : Nat) :
    ∀ (remaining : List StageSpec) (av1 av2 : List String) (acc : List StageSpec),
      av1.toFinset = av2.toFinset →
      resolveLoop fuel remaining av1 acc = resolveLoop fuel remaining av2 acc := by
  induction fuel with
  | zero =>
    intro remaining av1 av2 acc h
    cases remaining <;> simp [resolveLoop]
  | succ n ih =>
    intro remaining av1 av2 acc h
    cases remaining with
    | nil => simp [resolveLoop]
    | cons r rs =>
      simp only [resolveLoop]
      rw [findCandidate_congr (r :: rs) av1 av2 h]
      cases hfc : findCandidate (r :: rs) av2 with
      | none => rw [h]
      | some c =>
        have hstep : (stepAvailL av1 c).toFinset = (stepAvailL av2 c).toFinset := by
          rw [toFinset_stepAvailL, toFinset_stepAvailL, h]
        exact ih _ _ _ _ hstep

theorem orO_none_right {V : Type} (o : Option V) : orO o none = o := by
  cases o <;> rfl

theorem orO_none_left {V : Type} (o : Option V) : orO none o = o := rfl

theorem rlookup_cons {V : Type} (k0 : String) (v0 : V) (r : Record V) (k : String) :
    rlookup ((k0, v0) :: r) k = if k0 = k then some v0 else rlookup r k := by
  by_cases h : k0 = k
  · simp [rlookup, List.find?_cons, h]
  · simp [rlookup, List.find?_cons, h]

theorem rlookup_append {V : Type} (r1 r2 : Record V) (k : String) :
    rlookup (r1 ++ r2) k = orO (rlookup r1 k) (rlookup r2 k) := by
  induction r1 with
  | nil => simp [rlookup, orO]
  | cons p r1 ih =>
    rw [List.cons_append]
    cases p with
    | mk k0 v0 =>
      by_cases h : k0 = k
      · rw [rlookup_cons, rlookup_cons, if_pos h, if_pos h]
        rfl
      · rw [rlookup_cons, rlookup_cons, if_neg h, if_neg h, ih]

theorem rlookup_eq_none_of_not_mem {V : Type} (r : Record V) (k : String)
    (h : k ∉ recKeys r) : rlookup r k = none := by
  induction r with
  | nil => rfl
  | cons p r ih =>
    cases p with
    | mk k0 v0 =>
      have hne : k0 ≠ k := by
        intro he
        exact h (by simp [recKeys, he])
      have hk : k ∉ recKeys r := by
        intro hm
        exact h (by simp [recKeys] at hm ⊢; exact Or.inr hm)
      rw [rlookup_cons, if_neg hne]
      exact ih hk

theorem any_key_iff {V : Type} (r : Record V) (k : String) :
    r.any (fun p => decide (p.1 = k)) = true ↔ k ∈ recKeys r := by
  simp [List.any_eq_true, recKeys]

theorem rlookup_overwrite_ne {V : Type} (r : Record V) (k : String) (v : V)
    (k2 : String) (h : k2 ≠ k) :
    rlookup (r.map (fun p => if p.1 = k then (k, v) else p)) k2 = rlookup r k2 := by
  induction r with
  | nil => rfl
  | cons p r ih =>
    cases p with
    | mk k0 v0 =>
      rw [List.map_cons]
      by_cases h0 : k0 = k
      · rw [if_pos h0]
        rw [rlookup_cons, rlookup_cons, if_neg (fun he => h he.symm), ih]
        rw [if_neg (fun he : k0 = k2 => h (h0 ▸ he).symm)]
      · rw [if_neg h0]
        rw [rlookup_cons, rlookup_cons]
        by_cases h2 : k0 = k2
        · rw [if_pos h2, if_pos h2]
        · rw [if_neg h2, if_neg h2, ih]

theorem rlookup_overwrite_eq {V : Type} (r : Record V) (k : String) (v : V)
    (h : k ∈ recKeys r) :
    rlookup (r.map (fun p => if p.1 = k then (k, v) else p)) k = some v := by
  induction r with
  | nil => simp [recKeys] at h
  | cons p r ih =>
    cases p with
    | mk k0 v0 =>
      rw [List.map_cons]
      by_cases h0 : k0 = k
      · rw [if_pos h0, rlookup_cons, if_pos rfl]
      · rw [if_neg h0, rlookup_cons, if_neg h0]
        apply ih
        simp only [recKeys, List.map_cons, List.mem_cons] at h
        rcases h with h | h
        · exact absurd h.symm h0
        · exact h

theorem rlookup_setKey {V : Type} (r : Record V) (k : String) (v : V) (k2 : String) :
    rlookup (setKey r k v) k2 = if k2 = k then some v else rlookup r k2 := by
  unfold setKey
  by_cases hany : r.any (fun p => decide (p.1 = k)) = true
  · rw [if_pos hany]
    by_cases h2 : k2 = k
    · subst h2
      rw [if_pos rfl, rlookup_overwrite_eq r k2 v ((any_key_iff r k2).mp hany)]
    · rw [if_neg h2, rlookup_overwrite_ne r k v k2 h2]
  · rw [if_neg hany]
    have hnm : k ∉ recKeys r := fun hm => hany ((any_key_iff r k).mpr hm)
    rw [rlookup_append]
    by_cases h2 : k2 = k
    · subst h2
      rw [rlookup_eq_none_of_not_mem r k2 hnm, rlookup_cons]
      simp [orO]
    · rw [if_neg h2]
      have : rlookup [(k, v)] k2 = none := by
        rw [rlookup_cons, if_neg (fun he => h2 he.symm)]
        rfl
      rw [this, orO_none_right]

theorem rlookup_updateRec {V : Type} (other : Record V) :
    ∀ (r : Record V) (k : String), (recKeys other).Nodup →
      rlookup (updateRec r other) k = orO (rlookup other k) (rlookup r k) := by
  induction other with
  | nil =>
    intro r k _
    rfl
  | cons p rest ih =>
    intro r k hnd
    cases p with
    | mk k0 v0 =>
      have hfold : updateRec r ((k0, v0) :: rest) = updateRec (setKey r k0 v0) rest := rfl
      have hnd2 : (recKeys rest).Nodup := by
        simp only [recKeys, List.map_cons] at hnd
        exact hnd.of_cons
      have hk0 : k0 ∉ recKeys rest := by
        simp only [recKeys, List.map_cons, List.nodup_cons] at hnd
        exact hnd.1
      rw [hfold, ih (setKey r k0 v0) k hnd2, rlookup_setKey, rlookup_cons]
      by_cases h2 : k = k0
      · subst h2
        rw [rlookup_eq_none_of_not_mem rest k hk0, if_pos rfl, if_pos rfl]
        rfl
      · rw [if_neg h2, if_neg (fun he => h2 he.symm)]

theorem rlookup_delKey {V : Type} (r : Record V) (k0 k : String) :
    rlookup (delKey r k0) k = if k = k0 then none else rlookup r k := by
  induction r with
  | nil => by_cases h : k = k0 <;> simp [delKey, rlookup, h]
  | cons p r ih =>
    cases p with
    | mk k1 v1 =>
      unfold delKey at ih ⊢
      rw [List.filter_cons]
      by_cases h1 : k1 = k0
      · rw [if_neg (by simp [h1]), ih]
        by_cases h2 : k = k0
        · rw [if_pos h2, if_pos h2]
        · rw [if_neg h2, if_neg h2, rlookup_cons,
            if_neg (fun he : k1 = k => h2 (he.symm.trans h1))]
      · rw [if_pos (by simp [h1]), rlookup_cons, rlookup_cons]
        by_cases h2 : k1 = k
        · rw [if_pos h2, if_pos h2, if_neg (fun he : k = k0 => h1 (h2.trans he))]
        · rw [if_neg h2, if_neg h2, ih]

theorem rlookup_delKeys {V : Type} (ks : List String) :
    ∀ (r : Record V) (k : String),
      rlookup (delKeys r ks) k = if k ∈ ks then none else rlookup r k := by
  induction ks with
  | nil =>
    intro r k
    simp [delKeys]
  | cons k0 ks ih =>
    intro r k
    have hfold : delKeys r (k0 :: ks) = delKeys (delKey r k0) ks := rfl
    rw [hfold, ih, rlookup_delKey]
    by_cases h1 : k ∈ ks
    · rw [if_pos h1, if_pos (List.mem_cons_of_mem k0 h1)]
    · rw [if_neg h1]
      by_cases h2 : k = k0
      · rw [if_pos h2, if_pos (by simp [h2])]
      · rw [if_neg h2, if_neg (by simp [h2, h1])]


theorem find?_eq_some_first_prop {α : Type} (p : α → Bool) (q : α → Prop)
    (l : List α) (c : α) (hpq : ∀ a, p a = true ↔ q a) :
    l.find? p = some c ↔
      ∃ i, ∃ hi : i < l.length, l.get ⟨i, hi⟩ = c ∧ q c ∧
        ∀ j, ∀ hj : j < l.length, j < i → ¬ q (l.get ⟨j, hj⟩) := by
  rw [find?_eq_some_first]
  constructor
  · rintro ⟨i, hi, hget, hc, hfirst⟩
    refine ⟨i, hi, hget, (hpq c).mp hc, ?_⟩
    intro j hj hji hq
    have hp := (hpq _).mpr hq
    rw [hfirst j hj hji] at hp
    cases hp
  · rintro ⟨i, hi, hget, hc, hfirst⟩
    refine ⟨i, hi, hget, (hpq c).mpr hc, ?_⟩
    intro j hj hji
    cases hpj : p (l.get ⟨j, hj⟩)
    · rfl
    · exact absurd ((hpq _).mp hpj) (hfirst j hj hji)

theorem conflictedB_iff (s1 : StageSpec) (remaining : List StageSpec) :
    conflictedB s1 remaining = true ↔
      ∃ s2 ∈ remaining, s2 ≠ s1 ∧ s1.consumes ≠ [] ∧ ∀ f ∈ s1.consumes, f ∈ s2.inputs := by
  simp [conflictedB, List.any_eq_true, Bool.and_eq_true, subsetB_iff, and_assoc]

theorem qualifiesB_iff (remaining : List StageSpec) (av : List String) (s : StageSpec) :
    qualifiesB remaining av s = true ↔
      ((∀ k ∈ s.inputs, k ∈ av) ∧ ¬ conflictedB s remaining = true) := by
  simp [qualifiesB, Bool.and_eq_true, subsetB_iff]

theorem toFinset_input : (["input"] : List String).toFinset = ({"input"} : Finset String) := by
  simp

/-- Claim C1, amended.  Whenever `create_pipeline` succeeds, the
returned pipeline contains every given stage exactly once (it is a
permutation of the input), ordered so that each stage's inputs are
contained in the available-field set (initialized to `{input}`, extended
by each earlier stage's outputs and shrunk by its consumes) at the point
the stage is placed.  Whenever it raises the no-valid-order error, the
error reports exactly the remaining stages and the currently available
fields, the remaining list is nonempty, no candidate among the remaining
stages qualifies under any representation of the available set, and the
pipeline-so-far plus the remaining stages together account for every
given stage (no stage is silently dropped).  The original claim promised
success for every satisfiable stage set, which the code does not deliver
(see the counterexample). -/
theorem create_pipeline_sound (stages : List StageSpec) :
    (∀ P, create_pipeline stages = Except.ok P →
      P.Perm stages ∧ inputsSatF {"input"} P = true) ∧
    (∀ acc av rem,
      create_pipeline stages = Except.error (ResolveError.noValidOrder acc av rem) →
      rem ≠ [] ∧ (acc ++ rem).Perm stages ∧ av = availAlongF {"input"} acc ∧
      ∀ avL : List String, avL.toFinset = av → findCandidate rem avL = none) := by
  constructor
  · intro P heq
    unfold create_pipeline create_pipeline_from at heq
    by_cases h1 : (stages.map StageSpec.id).Nodup
    · rw [if_pos h1] at heq
      by_cases h2 : ("input" :: stages.flatMap (fun s => s.outputs.dedup)).Nodup
      · rw [if_pos h2] at heq
        obtain ⟨tail, hP, hperm, hsat⟩ := resolveLoop_ok _ _ _ _ _ (le_refl _) heq
        rw [hP, List.nil_append]
        exact ⟨hperm, by rw [← toFinset_input]; exact hsat⟩
      · rw [if_neg h2] at heq
        simp at heq
    · rw [if_neg h1] at heq
      simp at heq
  · intro acc av rem heq
    unfold create_pipeline create_pipeline_from at heq
    by_cases h1 : (stages.map StageSpec.id).Nodup
    · rw [if_pos h1] at heq
      by_cases h2 : ("input" :: stages.flatMap (fun s => s.outputs.dedup)).Nodup
      · rw [if_pos h2] at heq
        obtain ⟨mid, rem2, av2, he, hne, hperm, hav, hnone⟩ :=
          resolveLoop_err _ _ _ _ _ (le_refl _) heq
        rw [ResolveError.noValidOrder.injEq] at he
        obtain ⟨ha, hv, hr⟩ := he
        rw [List.nil_append] at ha
        subst ha
        subst hv
        subst hr
        refine ⟨hne, hperm, ?_, ?_⟩
        · rw [hav, toFinset_input]
        · intro avL hL
          rw [findCandidate_congr rem avL av2 hL]
          exact hnone
      · rw [if_neg h2] at heq
        simp at heq
    · rw [if_neg h1] at heq
      simp at heq

/-- Witness for C1: a one-stage set resolves to itself in a satisfying
order, and the concrete unsatisfiable-for-the-scan set
`[spP, spS1, spS2]` fails with an error that reports exactly the
remaining stage `spS2` and the available fields `{input, c}`. -/
theorem create_pipeline_sound_w :
    (([spP] : List StageSpec).Perm [spP] ∧ inputsSatF {"input"} [spP] = true) ∧
    ([spP, spS1] ++ [spS2]).Perm [spP, spS1, spS2] ∧
    ({"input", "c"} : Finset String) = availAlongF {"input"} [spP, spS1] ∧
    findCandidate [spS2] ["input", "c"] = none := by
  have h := (create_pipeline_sound [spP, spS1, spS2]).2 [spP, spS1] {"input", "c"} [spS2]
    (by decide)
  exact ⟨(create_pipeline_sound [spP]).1 [spP] (by decide), h.2.1, h.2.2.1,
    h.2.2.2 ["input", "c"] (by decide)⟩

/-- Counterexample to C1 as stated: the stage set `[spP, spS1, spS2]`
is satisfiable (the order `[spP, spS2, spS1]` satisfies every stage's
inputs), yet `create_pipeline` raises instead of returning a pipeline:
the subset-based conflict check lets `spS1` run before `spS2` even
though `spS2` still needs the field `a` that `spS1` consumes. -/
theorem create_pipeline_incomplete_cex :
    (∃ order : List StageSpec,
      order.Perm [spP, spS1, spS2] ∧ inputsSatF {"input"} order = true) ∧
    ∀ P, create_pipeline [spP, spS1, spS2] ≠ Except.ok P := by
  constructor
  · exact ⟨[spP, spS2, spS1], List.Perm.cons spP (List.Perm.swap spS1 spS2 []), by decide⟩
  · intro P h
    have hc : create_pipeline [spP, spS1, spS2] =
        Except.error (ResolveError.noValidOrder [spP, spS1] {"input", "c"} [spS2]) := by
      decide
    rw [hc] at h
    simp at h

/-- Claim C2, amended.  During resolution a candidate stage is rejected
as conflicted if and only if its consumes set is nonempty and is
contained, as a whole, in some other remaining stage's inputs (the
source checks `consumes.issubset(other.inputs)`, not merely that some
consumed field is required by another stage, which is what the original
claim said); and the candidate chosen by the scan is the first stage in
declaration order whose inputs are all available and which is not
conflicted in this subset sense. -/
theorem conflict_and_choice (remaining : List StageSpec) (av : List String) :
    (∀ s1, conflictedB s1 remaining = true ↔
      ∃ s2 ∈ remaining, s2 ≠ s1 ∧ s1.consumes ≠ [] ∧ ∀ f ∈ s1.consumes, f ∈ s2.inputs) ∧
    (∀ c, findCandidate remaining av = some c ↔
      ∃ i, ∃ hi : i < remaining.length, remaining.get ⟨i, hi⟩ = c ∧
        ((∀ k ∈ c.inputs, k ∈ av) ∧ ¬ conflictedB c remaining = true) ∧
        ∀ j, ∀ hj : j < remaining.length, j < i →
          ¬ ((∀ k ∈ (remaining.get ⟨j, hj⟩).inputs, k ∈ av) ∧
            ¬ conflictedB (remaining.get ⟨j, hj⟩) remaining = true)) := by
  constructor
  · intro s1
    exact conflictedB_iff s1 remaining
  · intro c
    exact find?_eq_some_first_prop _ _ _ _ (fun a => qualifiesB_iff remaining av a)

/-- Witness for C2: with `spS3` consuming `a` (a singleton consumes set
contained in `spS4`'s inputs) the conflict check fires, derived through
the characterization theorem. -/
theorem conflict_and_choice_w : conflictedB spS3 [spS3, spS4] = true :=
  ((conflict_and_choice [spS3, spS4] ["input", "a"]).1 spS3).mpr
    ⟨spS4, by decide, by decide, by decide, by decide⟩

/-- Counterexample to C2 as stated: stage `spS1` consumes `{a, b}` and
the other remaining stage `spS2` requires the consumed field `a`, so by
the claim `spS1` should be rejected as conflicted; but the code's
subset check `consumes.issubset(other.inputs)` does not fire (because
`{a, b}` is not a subset of `{a}`), and the scan in fact chooses `spS1`. -/
theorem conflict_subset_cex :
    (∃ s2 ∈ [spS1, spS2], s2 ≠ spS1 ∧ ∃ f ∈ spS1.consumes, f ∈ s2.inputs) ∧
    conflictedB spS1 [spS1, spS2] = false ∧
    findCandidate [spS1, spS2] ["input", "a", "b"] = some spS1 := by
  refine ⟨⟨spS2, by decide, by decide, "a", by decide, by decide⟩, by decide, by decide⟩

/-- Claim C7.  Resolution is deterministic: the order produced by
`create_pipeline` depends only on the stages in their declaration order
and on the mathematical available-field set, not on the concrete
iteration order or representation of that set (the only run-to-run
varying state in the source, where `available_inputs` is a hash set).
Two invocations on the same stage list therefore produce identical
results. -/
theorem resolution_deterministic (stages : List StageSpec) (av1 av2 : List String)
    (h : av1.toFinset = av2.toFinset) :
    create_pipeline_from stages av1 = create_pipeline_from stages av2 := by
  unfold create_pipeline_from
  by_cases h1 : (stages.map StageSpec.id).Nodup
  · rw [if_pos h1, if_pos h1]
    by_cases h2 : ("input" :: stages.flatMap (fun s => s.outputs.dedup)).Nodup
    · rw [if_pos h2, if_pos h2]
      exact resolveLoop_congr _ _ _ _ _ h
    · rw [if_neg h2, if_neg h2]
  · rw [if_neg h1, if_neg h1]

/-- Witness for C7: two different list representations of the initial
available set `{input}` lead to identical resolution results. -/
theorem resolution_deterministic_w :
    create_pipeline_from [spP, spS2] ["input", "input"] =
      create_pipeline_from [spP, spS2] ["input"] :=
  resolution_deterministic [spP, spS2] ["input", "input"] ["input"] (by decide)



/-- Claim C9, amended.  Every successfully constructed stage has an ID
that does not end in the reserved `'+'` suffix, and construction fails
(with the reserved-suffix assertion) whenever the ID does end in `'+'`.
The other invariant stated by the specification — that `outputs` never
overlaps `inputs` — is not checked by the constructor (see the
counterexample). -/
theorem stage_ctor_reserved (id : String) (inputs outputs consumes : List String)
    (e : Bool) :
    (∀ s, mkStageSpec id inputs outputs consumes e = Except.ok s →
      endsPlus s.id = false ∧ s.id = id) ∧
    (endsPlus id = true →
      mkStageSpec id inputs outputs consumes e = Except.error reservedSuffixMsg) := by
  constructor
  · intro s h
    by_cases hp : endsPlus id = true
    · simp [mkStageSpec, hp] at h
    · rw [mkStageSpec, if_neg hp, Except.ok.injEq] at h
      subst h
      exact ⟨Bool.not_eq_true _ ▸ hp, rfl⟩
  · intro hp
    rw [mkStageSpec, if_pos hp]

/-- Witness for C9: constructing a stage with a plain ID succeeds and
keeps the ID; constructing one whose ID ends in `'+'` fails. -/
theorem stage_ctor_reserved_w :
    (endsPlus (StageSpec.mk "a" ["x"] ["y"] [] true).id = false ∧
      (StageSpec.mk "a" ["x"] ["y"] [] true).id = "a") ∧
    mkStageSpec "a+" ["x"] ["y"] [] true = Except.error reservedSuffixMsg := by
  constructor
  · have h := (stage_ctor_reserved "a" ["x"] ["y"] [] true).1 ⟨"a", ["x"], ["y"], [], true⟩
      (by decide)
    exact h
  · exact (stage_ctor_reserved "a+" ["x"] ["y"] [] true).2 (by decide)

/-- Counterexample to C9 as stated: a stage whose declared outputs
overlap its inputs (both contain `x`) is constructed successfully, so
the outputs-disjoint-from-inputs invariant is not established by
construction. -/
theorem stage_ctor_overlap_cex :
    mkStageSpec "a" ["x"] ["x"] [] true =
      Except.ok (StageSpec.mk "a" ["x"] ["x"] [] true) ∧
    ¬ Disjoint (StageSpec.mk "a" ["x"] ["x"] [] true).inputs.toFinset
        (StageSpec.mk "a" ["x"] ["x"] [] true).outputs.toFinset := by
  refine ⟨by decide, ?_⟩
  intro h
  have hx : ({"x"} : Finset String) ≤ (StageSpec.mk "a" ["x"] ["x"] [] true).inputs.toFinset := by
    decide
  have hy : ({"x"} : Finset String) ≤ (StageSpec.mk "a" ["x"] ["x"] [] true).outputs.toFinset := by
    decide
  have := h hx hy
  simp at this

/-- Claim C8.  A stage whose effective `enabled` flag is false — an
explicit `false` in its configuration namespace, or an absent entry with
`enabled_by_default = false` — is skipped when invoked: the skip
notification fires instead of `process`, the elapsed time is exactly
`0`, and the data record is returned unchanged.  `Stage.__call__`
receives no information about the requested execution window, so this
holds regardless of window membership. -/
theorem disabled_stage_skips {V : Type} (st : Stage V) (data : Record V)
    (cfg : Config V) (dt : Nat)
    (hen : (cfgGet cfg st.spec.id).enabled.getD st.spec.enabled_by_default = false) :
    stageCall st data cfg dt = Except.ok (data, 0, [StageEvent.skipped]) := by
  simp [stageCall, hen]

/-- Witness for C8: a stage disabled by default with no configuration
entry, and a stage enabled by default but disabled by an explicit
override, are both skipped with zero elapsed time and unchanged data. -/
theorem disabled_stage_skips_w :
    stageCall c8aStage [("i", 1)] [] 5 = Except.ok ([("i", 1)], 0, [StageEvent.skipped]) ∧
    stageCall c8bStage [("i", 1)] [("e", StageCfg.mk (some false) [])] 7 =
      Except.ok ([("i", 1)], 0, [StageEvent.skipped]) :=
  ⟨disabled_stage_skips c8aStage [("i", 1)] [] 5 (by decide),
   disabled_stage_skips c8bStage [("i", 1)] [("e", StageCfg.mk (some false) [])] 7 (by decide)⟩

theorem setEqB_iff (xs ys : List String) :
    setEqB xs ys = true ↔ ((∀ k ∈ xs, k ∈ ys) ∧ ∀ k ∈ ys, k ∈ xs) := by
  simp [setEqB, Bool.and_eq_true, subsetB_iff]

theorem stageCall_run {V : Type} (st : Stage V) (data : Record V) (cfg : Config V)
    (dt : Nat)
    (hen : (cfgGet cfg st.spec.id).enabled.getD st.spec.enabled_by_default = true)
    (hin : ∀ k ∈ st.spec.inputs, (rlookup data k).isSome = true) :
    stageCall st data cfg dt =
      (if setEqB (recKeys (stageOut st data cfg)) st.spec.outputs then
        Except.ok (delKeys (updateRec data (stageOut st data cfg)) st.spec.consumes, dt,
          [StageEvent.started, StageEvent.ended])
      else Except.error (contractMsg st.spec.id)) := by
  have hall : st.spec.inputs.all (fun k => (rlookup data k).isSome) = true :=
    List.all_eq_true.mpr hin
  simp only [stageCall, hen, if_true, extractInputs, hall, stageOut]

/-- Claim C4.  For a stage declaring the output set `{y}` whose
invocation reaches its `process` method (it is enabled and its inputs
are present in the record): if `process` returns a mapping with no keys,
or with key set `{y, z}` for some `z ≠ y`, the output-contract assertion
fails with the contract-violation error; if it returns exactly the key
set `{y}`, the call succeeds, the returned outputs are merged into the
data record (stage outputs win over existing entries) and the stage's
consumed fields are deleted from the record. -/
theorem stage_output_contract {V : Type} (st : Stage V) (data : Record V)
    (cfg : Config V) (dt : Nat) (y : String)
    (hout : st.spec.outputs = [y])
    (hen : (cfgGet cfg st.spec.id).enabled.getD st.spec.enabled_by_default = true)
    (hin : ∀ k ∈ st.spec.inputs, (rlookup data k).isSome = true) :
    (recKeys (stageOut st data cfg) = [] →
      stageCall st data cfg dt = Except.error (contractMsg st.spec.id)) ∧
    (∀ z, z ≠ y → (∀ k, k ∈ recKeys (stageOut st data cfg) ↔ (k = y ∨ k = z)) →
      stageCall st data cfg dt = Except.error (contractMsg st.spec.id)) ∧
    ((∀ k, k ∈ recKeys (stageOut st data cfg) ↔ k = y) →
      (recKeys (stageOut st data cfg)).Nodup →
      stageCall st data cfg dt =
        Except.ok (delKeys (updateRec data (stageOut st data cfg)) st.spec.consumes, dt,
          [StageEvent.started, StageEvent.ended]) ∧
      ∀ k2, rlookup (delKeys (updateRec data (stageOut st data cfg)) st.spec.consumes) k2 =
        if k2 ∈ st.spec.consumes then none
        else orO (rlookup (stageOut st data cfg) k2) (rlookup data k2)) := by
  refine ⟨?_, ?_, ?_⟩
  · intro hkeys
    rw [stageCall_run st data cfg dt hen hin, if_neg]
    intro hset
    obtain ⟨_, h2⟩ := (setEqB_iff _ _).mp hset
    have : y ∈ recKeys (stageOut st data cfg) := h2 y (by rw [hout]; exact List.mem_singleton_self y)
    rw [hkeys] at this
    cases this
  · intro z hz hkeys
    rw [stageCall_run st data cfg dt hen hin, if_neg]
    intro hset
    obtain ⟨h1, _⟩ := (setEqB_iff _ _).mp hset
    have hzmem : z ∈ recKeys (stageOut st data cfg) := (hkeys z).mpr (Or.inr rfl)
    have := h1 z hzmem
    rw [hout] at this
    rcases List.mem_singleton.mp this with h
    exact hz h
  · intro hkeys hnd
    have hset : setEqB (recKeys (stageOut st data cfg)) st.spec.outputs = true := by
      rw [setEqB_iff]
      constructor
      · intro k hk
        rw [hout]
        rw [hkeys k] at hk
        simp [hk]
      · intro k hk
        rw [hout] at hk
        rw [hkeys k]
        exact List.mem_singleton.mp hk
    refine ⟨by rw [stageCall_run st data cfg dt hen hin, if_pos hset], ?_⟩
    intro k2
    rw [rlookup_delKeys, rlookup_updateRec _ _ _ hnd]

/-- Witness for C4: the concrete stage `c4Stage` (outputs `{y}`,
consumes `c1`) invoked on a record containing `i` and `c1` succeeds;
afterwards the consumed field `c1` is gone, the produced field `y`
carries the produced value, and the untouched field `i` is preserved. -/
theorem stage_output_contract_w :
    stageCall c4Stage [("i", 1), ("c1", 2)] [] 5 =
      Except.ok (delKeys (updateRec [("i", 1), ("c1", 2)]
        (stageOut c4Stage [("i", 1), ("c1", 2)] [])) c4Stage.spec.consumes, 5,
        [StageEvent.started, StageEvent.ended]) ∧
    rlookup (delKeys (updateRec [("i", 1), ("c1", 2)]
      (stageOut c4Stage [("i", 1), ("c1", 2)] [])) c4Stage.spec.consumes) "c1" = none ∧
    rlookup (delKeys (updateRec [("i", 1), ("c1", 2)]
      (stageOut c4Stage [("i", 1), ("c1", 2)] [])) c4Stage.spec.consumes) "y" = some 42 ∧
    rlookup (delKeys (updateRec [("i", 1), ("c1", 2)]
      (stageOut c4Stage [("i", 1), ("c1", 2)] [])) c4Stage.spec.consumes) "i" = some 1 := by
  have hk : recKeys (stageOut c4Stage [("i", 1), ("c1", 2)] []) = ["y"] := by decide
  have h := (stage_output_contract c4Stage [("i", 1), ("c1", 2)] [] 5 "y" (by decide)
    (by decide) (by decide)).2.2 (fun k => by rw [hk]; simp) (by decide)
  refine ⟨h.1, ?_, ?_, ?_⟩
  · rw [h.2 "c1"]
    decide
  · rw [h.2 "y"]
    decide
  · rw [h.2 "i"]
    decide



/-- Claim C3.  For the three-stage pipeline in which stage `a` produces
`{x}`, stage `b` requires `x` and produces `{y}`, and stage `c` requires
`y` and produces `{z}`: `get_extra_stages` for the window `[c, c]` with
available inputs containing only `input` returns a backfill list
containing both `a` and `b`, and `Pipeline.process` over that window
executes `a` and `b` (as backfill) before `c`, as the returned trace
shows. -/
theorem backfill_window_c3 :
    get_extra_stages (pABC.stages.map Stage.spec) (some "c") (some "c") ["input"] =
      Except.ok ["b", "a"] ∧
    pABC.process none [] (some "c") (some "c") (some [("input", 7)]) (fun _ => 0) =
      Except.ok (ProcResult.mk (some [("input", 7), ("x", 0), ("y", 0), ("z", 0)])
        [("a", 0), ("b", 0), ("c", 0)]
        [("a", StageEvent.started), ("a", StageEvent.ended), ("b", StageEvent.started),
         ("b", StageEvent.ended), ("c", StageEvent.started), ("c", StageEvent.ended)]) :=
  ⟨by decide, by decide⟩

/-- Claim C5.  For every pipeline (whose stage IDs respect the reserved
suffix invariant) and every pair of stage IDs `f` and `l` present in the
pipeline with `f` positioned after `l`, `Pipeline.process` returns
immediately: the data argument is handed back unchanged, the timings
mapping is empty, and no stage is executed or skipped (the trace is
empty). -/
theorem process_noop_window {V : Type} (p : Pipeline V) (input : Option V)
    (cfg : Config V) (f l : String) (i j : Nat) (data? : Option (Record V))
    (dtO : String → Nat)
    (hplus : ∀ s ∈ p.stages, endsPlus s.spec.id = false)
    (hf : p.find f = some i) (hl : p.find l = some j) (hji : j < i) :
    p.process input cfg (some f) (some l) data? dtO =
      Except.ok (ProcResult.mk data? [] []) := by
  obtain ⟨stages⟩ := p
  simp only [Pipeline.find] at hf hl
  cases stages with
  | nil => rw [stageIndex] at hf; cases hf
  | cons s0 rest =>
    have hs0 : s0.spec.id ≠ f := by
      intro he
      rw [stageIndex, if_pos he] at hf
      cases hf
      exact Nat.not_lt_zero j hji
    have hfp : endsPlus f = false := by
      obtain ⟨s, hs, hid⟩ := mem_of_stageIndex_some hf
      rw [← hid]
      exact hplus s hs
    simp only [Pipeline.process]
    rw [if_neg (fun hand => hs0 (Option.some.inj hand.1).symm)]
    simp only [resolvePlus, hfp, Bool.false_eq_true, if_false]
    have hguard : noopGuard (Pipeline.mk (s0 :: rest)) (some f) (some l) = true := by
      simp only [noopGuard, Pipeline.find, hf, hl, idxGt]
      simp [hji]
    rw [hguard]
    simp

/-- Witness for C5: in the two-stage pipeline `[a, b]`, requesting the
window from `b` down to `a` returns the prior data untouched with no
timings and no trace. -/
theorem process_noop_window_w :
    pAB.process (some 1) [] (some "b") (some "a") (some [("q", 9)]) (fun _ => 0) =
      Except.ok (ProcResult.mk (some [("q", 9)]) [] []) :=
  process_noop_window pAB (some 1) [] "b" "a" 1 0 (some [("q", 9)]) (fun _ => 0)
    (by decide) (by decide) (by decide) (by decide)

/-- Claim C6, amended.  For every pipeline with at least one stage,
calling `Pipeline.process` with a `first_stage` that is not the
pipeline's first stage (and not carrying the reserved suffix) and no
prior data fails with the missing-seed-data error before any stage is
executed — provided the call is not already captured by the earlier
no-op-window return, i.e. provided `last_stage` does not make
`find(first_stage) > find(last_stage)` hold.  The original claim omitted
that proviso; the counterexample shows the error is not raised when
`last_stage` precedes `first_stage`. -/
theorem process_missing_seed {V : Type} (p : Pipeline V) (input : Option V)
    (cfg : Config V) (f : String) (last? : Option String) (dtO : String → Nat)
    (s0 : Stage V) (rest : List (Stage V))
    (hs : p.stages = s0 :: rest)
    (hfp : endsPlus f = false)
    (hne : f ≠ s0.spec.id)
    (hguard : ∀ l, last? = some l → idxGt (p.find f) (p.find l) = false) :
    p.process input cfg (some f) last? none dtO = Except.error valueErrorMsg := by
  obtain ⟨stages⟩ := p
  simp only at hs
  subst hs
  simp only [Pipeline.process]
  rw [if_neg (fun hand => hne (Option.some.inj hand.1))]
  simp only [resolvePlus, hfp, Bool.false_eq_true, if_false]
  have hg : noopGuard (Pipeline.mk (s0 :: rest)) (some f) last? = false := by
    cases last? with
    | none => rfl
    | some l => exact hguard l rfl
  rw [hg]
  simp only [Bool.false_eq_true, if_false]
  rw [if_pos ⟨rfl, fun he => hne (Option.some.inj he), rfl⟩]

/-- Witness for C6 (amended): in the pipeline `[a, b]`, requesting
`first_stage = b` with no `last_stage` and no prior data raises the
missing-seed-data error. -/
theorem process_missing_seed_w :
    pAB.process (some 1) [] (some "b") none none (fun _ => 0) =
      Except.error valueErrorMsg :=
  process_missing_seed pAB (some 1) [] "b" none (fun _ => 0) stA [stB]
    rfl (by decide) (by decide) (fun l hl => by cases hl)

/-- Counterexample to C6 as stated: in the pipeline `[a, b]`,
`first_stage = b` is not the first stage and no prior data is given,
yet `process` does not fail: because `last_stage = a` precedes it, the
no-op-window early return fires first and hands back the absent data
with empty timings. -/
theorem process_missing_seed_cex :
    pAB.process (some 1) [] (some "b") (some "a") none (fun _ => 0) =
      Except.ok (ProcResult.mk none [] []) := by
  decide

/-- Claim C10.  `Pipeline.find` on a stage ID that occurs nowhere in
the pipeline returns the not-found dummy (`float('inf')`, modelled as
`none`) rather than raising; consequently `Pipeline.process` with such
a `first_stage` and any `last_stage` that does occur in the pipeline
returns the no-op result — the data argument unchanged and an empty
timings mapping — instead of reporting the unknown stage as an error. -/
theorem find_absent_noop {V : Type} (p : Pipeline V) (input : Option V)
    (cfg : Config V) (f l : String) (j : Nat) (data? : Option (Record V))
    (dtO : String → Nat)
    (habs : ∀ s ∈ p.stages, s.spec.id ≠ f)
    (hfp : endsPlus f = false)
    (hl : p.find l = some j) :
    p.find f = none ∧
    p.process input cfg (some f) (some l) data? dtO =
      Except.ok (ProcResult.mk data? [] []) := by
  have hfnone : p.find f = none := (stageIndex_eq_none_iff f p.stages).mpr habs
  refine ⟨hfnone, ?_⟩
  obtain ⟨stages⟩ := p
  simp only [Pipeline.find] at hfnone hl
  cases stages with
  | nil => rw [stageIndex] at hl; cases hl
  | cons s0 rest =>
    have hs0 : s0.spec.id ≠ f := habs s0 (List.mem_cons_self s0 rest)
    simp only [Pipeline.process]
    rw [if_neg (fun hand => hs0 (Option.some.inj hand.1).symm)]
    simp only [resolvePlus, hfp, Bool.false_eq_true, if_false]
    have hguard : noopGuard (Pipeline.mk (s0 :: rest)) (some f) (some l) = true := by
      simp only [noopGuard, Pipeline.find, hfnone, hl, idxGt]
    rw [hguard]
    simp

/-- Witness for C10: in the pipeline `[a, b]`, the ID `zz` occurs
nowhere, so `find` returns the dummy and `process` with
`first_stage = zz`, `last_stage = b` silently returns the prior data
with no timings. -/
theorem find_absent_noop_w :
    pAB.find "zz" = none ∧
    pAB.process (some 1) [] (some "zz") (some "b") (some [("q", 9)]) (fun _ => 0) =
      Except.ok (ProcResult.mk (some [("q", 9)]) [] []) :=
  find_absent_noop pAB (some 1) [] "zz" "b" 1 (some [("q", 9)]) (fun _ => 0)
    (by decide) (by decide) (by decide)


end Pypers
